import Mathlib

/-!
# BugSniffer discovery/merge pipeline — verification development

Shallow embedding of the BugSniffer browser extension's discovery and
persistence logic, translated from the repository sources:

* `background.js` — `storeJS`, `saveJSFile`, the `SAVE_JS_URLS` handler;
* `content.js` — `toAbsolute`, `isJsLike`;
* the class-based service worker (`BugSnifferBackground`) —
  `saveJavaScriptFile`, `handleSaveJsUrls`, `migrateDataFormat`,
  `isJavaScriptRequest`;
* the class-based content script (`BugSnifferContentScript`) —
  `toAbsoluteUrl`, `isJavaScriptLike`, `generateHash`.

JavaScript strings are modelled as Lean `String`; character-level string
operations (`startsWith`, `includes`, `endsWith`) are modelled over
`String.toList`.  `Date.now()` is passed in explicitly as a `Nat` parameter
wherever the source calls it.  The platform `URL` constructor, which the
source uses for parsing, is modelled by a simplified executable parser
(documented at its definition).
-/

/-! ## Character-list string primitives

`strStartsWith s p` models JavaScript `s.startsWith(p)`, `strIncludes s p`
models `s.includes(p)` (substring occurrence anywhere), via the list of
characters of the string. -/

def strStartsWith (s pat : String) : Bool :=
  pat.toList.isPrefixOf s.toList

def strIncludes (s pat : String) : Bool :=
  decide (pat.toList <:+: s.toList)

def strEndsWith (s pat : String) : Bool :=
  pat.toList.isSuffixOf s.toList

/-- JavaScript `s.toLowerCase()`, modelled per character (the platform
`String.toLower` is not used because the classifiers only need the
character map). -/
def jsToLower (s : String) : String :=
  String.mk (s.toList.map Char.toLower)

/-! ## ContentHasher: `BugSnifferContentScript.generateHash`

The source computes, per character, `hash = ((hash << 5) - hash) + char`
followed by `hash |= 0`.  In JavaScript `<<` and `|` truncate to a signed
32-bit integer, so each step wraps to the interval
`[-2^31, 2^31)`.  We model signed 32-bit truncation on `Int` explicitly. -/

def toInt32 (n : Int) : Int :=
  (n + 2147483648) % 4294967296 - 2147483648

/-- One loop iteration of `generateHash`: `((hash << 5) - hash) + char`
with the shift result and the final `|= 0` each truncated to int32. -/
def hashStep (h : Int) (c : Char) : Int :=
  toInt32 (toInt32 (h * 32) - h + (c.toNat : Int))

/-- `BugSnifferContentScript.generateHash`: `if (!str) return 0` then the
rolling-hash loop over the character codes of the string. -/
def generateHash (s : String) : Int :=
  if s.isEmpty then 0 else s.toList.foldl hashStep 0

/-- The specification's description of the hash step:
`h' = 31 * h + charCode`, wrapped to a signed 32-bit integer. -/
def specHashStep (h : Int) (c : Char) : Int :=
  toInt32 (31 * h + (c.toNat : Int))

/-- The polynomial rolling hash exactly as the specification words it. -/
def specHash (s : String) : Int :=
  s.toList.foldl specHashStep 0

theorem toInt32_lb (n : Int) : -2147483648 ≤ toInt32 n := by
  unfold toInt32; omega

theorem toInt32_ub (n : Int) : toInt32 n < 2147483648 := by
  unfold toInt32; omega

theorem hashStep_eq_specHashStep : hashStep = specHashStep := by
  funext h c
  unfold hashStep specHashStep toInt32
  omega

theorem foldl_hashStep_range (l : List Char) (h : Int)
    (hlb : -2147483648 ≤ h) (hub : h < 2147483648) :
    -2147483648 ≤ l.foldl hashStep h ∧ l.foldl hashStep h < 2147483648 := by
  induction l generalizing h with
  | nil => exact ⟨hlb, hub⟩
  | cons c cs ih =>
      exact ih (hashStep h c) (toInt32_lb _) (toInt32_ub _)

/-- **C9.** `generateHash` agrees everywhere with the specification's
order-sensitive polynomial rolling hash `h' = 31*h + charCode` wrapped to a
signed 32-bit integer at every step, its result always lies in the signed
32-bit range, and the empty string hashes to the sentinel `0`. -/
theorem C9_generateHash_correct (s : String) :
    generateHash s = specHash s ∧
    -2147483648 ≤ generateHash s ∧ generateHash s < 2147483648 ∧
    generateHash "" = 0 := by
  have hfold : generateHash s = specHash s := by
    unfold generateHash specHash
    rw [hashStep_eq_specHashStep]
    split
    · rename_i hs
      rw [(String.isEmpty_iff s).mp hs]
      rfl
    · rfl
  refine ⟨hfold, ?_, ?_, rfl⟩
  · unfold generateHash
    split
    · omega
    · exact (foldl_hashStep_range _ 0 (by omega) (by omega)).1
  · unfold generateHash
    split
    · omega
    · exact (foldl_hashStep_range _ 0 (by omega) (by omega)).2

/-! ## UrlClassifier: parsed-URL shape

The classifiers in the source operate on a platform `URL` object after
parsing.  We embed the relevant projections of that object: `pathname`
(path component, no query/fragment) and `searchParams` (the list of query
parameter names, as tested by `searchParams.has(name)`). -/

structure ParsedUrl where
  pathname : String
  searchParams : List String
  deriving DecidableEq

/-- The case-insensitive extension test `/\.(m?js)$/i` applied to an
already-lowercased path: the path ends in `.js` or `.mjs`. -/
def jsExtTest (p : String) : Bool :=
  strEndsWith p ".js" || strEndsWith p ".mjs"

/-- `BugSnifferContentScript.isJavaScriptLike` on a parsed URL:
`/\.(m?js)$/i.test(pathname) || pathname.includes('.js') ||
searchParams.has('jsModule') || searchParams.has('module')`
with `pathname` lowercased first. -/
def isJavaScriptLike (u : ParsedUrl) : Bool :=
  let p := jsToLower u.pathname
  jsExtTest p || strIncludes p ".js" ||
    u.searchParams.contains "jsModule" || u.searchParams.contains "module"

/-- `content.js`'s `isJsLike` on a parsed URL: only
`/\.(m?js)$/i.test(pathname)`, no substring test and no query-parameter
test. -/
def isJsLike (u : ParsedUrl) : Bool :=
  jsExtTest (jsToLower u.pathname)

/-- The classifier condition exactly as the claim words it: the path ends
in `.js` or `.mjs` case-insensitively, or the query contains a module
marker parameter named `jsModule` or `module`. -/
def claimJsLike (u : ParsedUrl) : Bool :=
  jsExtTest (jsToLower u.pathname) ||
    u.searchParams.contains "jsModule" || u.searchParams.contains "module"

/-- The amended classifier condition: lowercased path contains `.js` as a
substring, or path ends in `.mjs` case-insensitively, or the query has a
`jsModule` or `module` parameter. -/
def amendedJsLike (u : ParsedUrl) : Bool :=
  strIncludes (jsToLower u.pathname) ".js" || strEndsWith (jsToLower u.pathname) ".mjs" ||
    u.searchParams.contains "jsModule" || u.searchParams.contains "module"

theorem endsWith_implies_includes (s pat : String)
    (h : strEndsWith s pat = true) : strIncludes s pat = true := by
  unfold strEndsWith at h
  unfold strIncludes
  rw [List.isSuffixOf_iff_suffix] at h
  exact decide_eq_true h.isInfix

/-- **C2 counterexample.** The claim's iff fails on the code in both
directions: `isJavaScriptLike` accepts `/data.json` (its
`pathname.includes('.js')` clause fires on `.json`) although the claimed
condition rejects it; and `content.js`'s `isJsLike` rejects
`/load?jsModule=1` although the claimed condition accepts it. -/
theorem C2_counterexample :
    isJavaScriptLike ⟨"/data.json", []⟩ = true ∧
    claimJsLike ⟨"/data.json", []⟩ = false ∧
    isJsLike ⟨"/load", ["jsModule"]⟩ = false ∧
    claimJsLike ⟨"/load", ["jsModule"]⟩ = true := by
  decide

/-- **C2 (amended).** The class-based classifier `isJavaScriptLike`
returns true iff the lowercased path contains `.js` as a substring, or the
path ends in `.mjs` case-insensitively, or the query has a `jsModule` or
`module` parameter; the plain `content.js` classifier `isJsLike` instead
returns true iff the path ends in `.js`/`.mjs` case-insensitively,
ignoring query parameters. -/
theorem C2_classifier_amended (u : ParsedUrl) :
    isJavaScriptLike u = amendedJsLike u ∧
    isJsLike u = jsExtTest (jsToLower u.pathname) := by
  refine ⟨?_, rfl⟩
  unfold isJavaScriptLike amendedJsLike jsExtTest
  cases hjs : strEndsWith (jsToLower u.pathname) ".js" with
  | true =>
      simp [hjs, endsWith_implies_includes _ _ hjs]
  | false =>
      cases hin : strIncludes (jsToLower u.pathname) ".js" <;>
        cases hm : strEndsWith (jsToLower u.pathname) ".mjs" <;> simp [hjs, hin, hm]

/-! ## UrlClassifier: `toAbsoluteUrl` and the platform URL constructor

`BugSnifferContentScript.toAbsoluteUrl` (and `content.js`'s `toAbsolute`)
wrap `new URL(url, window.location.href)` in a try/catch that yields
`null` on a parse failure.  The platform constructor is a browser
primitive; `urlResolve` below is a simplified executable model of it: a
candidate carrying a syntactically valid scheme (an ASCII letter followed
by letters/digits/`+`/`-`/`.` and then `:`) parses as an absolute URL and
is returned unchanged (this includes `data:`, `javascript:` and
`chrome-extension:` URLs — the real constructor does not reject them);
otherwise the candidate is resolved against the base when the base itself
is absolute; otherwise parsing fails.  Host requirements of special
schemes and full RFC 3986 path normalization are elided; no claim in this
development depends on the precise text of a successfully resolved
relative URL. -/

def isSchemeChar (c : Char) : Bool :=
  c.isAlphanum || c = '+' || c = '-' || c = '.'

/-- The candidate has a `scheme:` head, so the model constructor accepts
it as an absolute URL. -/
def hasScheme (s : String) : Bool :=
  let cs := s.toList
  let head := cs.takeWhile (fun c => !(c = ':'))
  decide (head.length < cs.length) &&
    (match head with
     | [] => false
     | c :: rest => c.isAlpha && rest.all isSchemeChar)

/-- Characters of `l` strictly after the first occurrence of the
contiguous pattern `pat`, or `none` when `pat` does not occur. -/
def afterSeq (pat : List Char) : List Char → Option (List Char)
  | [] => if pat.isEmpty then some [] else none
  | c :: rest =>
      if pat.isPrefixOf (c :: rest) then some ((c :: rest).drop pat.length)
      else afterSeq pat rest

/-- `scheme://host` head of an absolute URL (simplified). -/
def originOf (base : String) : String :=
  match afterSeq "://".toList base.toList with
  | none => base
  | some rest =>
      let host := rest.takeWhile (fun c => !(c = '/' || c = '?' || c = '#'))
      String.mk (base.toList.take (base.toList.length - rest.length) ++ host)

/-- Base URL truncated after its last `/` (simplified directory). -/
def dirOf (base : String) : String :=
  let cs := base.toList
  let cut := (cs.reverse.dropWhile (fun c => !(c = '/'))).reverse
  if cut.isEmpty then base ++ "/" else String.mk cut

/-- Resolution of a relative candidate against an absolute base
(simplified: root-relative candidates are attached to the base's origin,
other candidates to the base's directory). -/
def resolveAgainst (base rel : String) : String :=
  if strStartsWith rel "/" then originOf base ++ rel else dirOf base ++ rel

/-- Simplified model of `new URL(candidate, base)`: `none` models the
thrown `TypeError` that the source catches. -/
def urlResolve (u base : String) : Option String :=
  if hasScheme u then some u
  else if hasScheme base then some (resolveAgainst base u)
  else none

/-- `BugSnifferContentScript.toAbsoluteUrl`: `if (!url) return null;
try { return new URL(url, window.location.href).href } catch { return
null }`.  A missing attribute is the `none` input; the empty string is
falsy in JavaScript, so it also short-circuits to `null`. -/
def toAbsoluteUrl (url : Option String) (base : String) : Option String :=
  match url with
  | none => none
  | some u => if u.isEmpty then none else urlResolve u base

/-- **C5 counterexample.** The claim says normalizing a
`data:text/javascript,...` candidate returns null; in the code the URL
constructor parses `data:` URLs successfully, so `toAbsoluteUrl` returns
the URL itself. -/
theorem C5_counterexample :
    toAbsoluteUrl (some "data:text/javascript,alert(1)") "https://example.com/page"
      = some "data:text/javascript,alert(1)" := by
  decide

/-- **C5 (amended).** `toAbsoluteUrl` never throws (it is a total
function into `Option`) and returns `null` exactly when the candidate is
missing or empty, or fails to parse as an absolute URL while the base is
not absolute either.  Scheme-based rejection of `data:`, `javascript:` or
extension-internal candidates is *not* performed here: any candidate with
a syntactically valid scheme is returned unchanged. -/
theorem C5_normalize_amended (s base : String) :
    (toAbsoluteUrl (some s) base = none ↔
      (s = "" ∨ (hasScheme s = false ∧ hasScheme base = false))) ∧
    toAbsoluteUrl none base = none ∧
    (hasScheme s = true → s.isEmpty = false →
      toAbsoluteUrl (some s) base = some s) := by
  refine ⟨?_, rfl, ?_⟩
  · unfold toAbsoluteUrl urlResolve
    cases hse : s.isEmpty with
    | true =>
        simp only [if_pos rfl, hse]
        simp [(String.isEmpty_iff s).mp hse]
    | false =>
        have hsne : ¬s = "" := by
          intro h
          have htrue : s.isEmpty = true := (String.isEmpty_iff s).mpr h
          rw [hse] at htrue
          exact Bool.false_ne_true htrue
        cases h1 : hasScheme s with
        | true => simp [hse, h1, hsne]
        | false =>
            cases h2 : hasScheme base with
            | true => simp [hse, h1, h2, hsne]
            | false => simp [hse, h1, h2, hsne]
  · intro h1 h2
    unfold toAbsoluteUrl urlResolve
    simp [h1, h2]

/-! ## DomainRecordMerger: the `BugSnifferBackground` data model

Embedding of the stored per-domain record and the discovery batch handled
by `handleSaveJsUrls`.  The network-only passenger fields of
`createFileInfo` (`status`, `ip`, `fromCache`, `type`, `method`,
`requestTime`, `responseHeaders`, `tabId`) are never read by any merge,
trim or migration logic and are elided from `FileEntry`. -/

structure FileEntry where
  url : String
  timestamp : Option Nat
  source : String
  deriving DecidableEq

structure InlineEntry where
  hash : Int
  snippet : String
  suspicious : List String
  length : Nat
  timestamp : Nat
  deriving DecidableEq

structure SriEntry where
  url : String
  integrity : String
  algorithm : String
  deriving DecidableEq

/-- The `metadata` object written by `handleSaveJsUrls` /
`saveJavaScriptFile`; missing keys (fresh record) are `none`. -/
structure MergeMetadata where
  lastUpdated : Option Nat
  totalFiles : Option Nat
  totalInlines : Option Nat
  deriving DecidableEq

structure DomainData where
  files : List FileEntry
  inlines : List InlineEntry
  csp : Option String
  sri : List SriEntry
  metadata : MergeMetadata
  deriving DecidableEq

/-- The default record `{ files: [], inlines: [], metadata: {} }`. -/
def emptyDomainData : DomainData :=
  ⟨[], [], none, [], ⟨none, none, none⟩⟩

/-- A discovery batch as carried by a `SAVE_JS_URLS` message. -/
structure Batch where
  urls : List String
  inlines : List InlineEntry
  csp : Option String
  sri : List SriEntry
  deriving DecidableEq

/-! ### Generic keyed dedup-append fold

Both per-batch loops of `handleSaveJsUrls` have the same shape: walk the
batch, skip an element whose key is already present, else append a new
entry built from it.  `addDedup` captures that shape once. -/

/-- `xs.some(x => keyOf(x) === k)`. -/
def hasKey {α κ : Type} [BEq κ] (keyOf : α → κ) (xs : List α) (k : κ) : Bool :=
  xs.any (fun x => keyOf x == k)

/-- Fold a batch into `xs`: skip `b` when `key b` is already present
(by `keyOf`), else push `mk b`. -/
def addDedup {α β κ : Type} [BEq κ] (keyOf : α → κ) (key : β → κ) (mk : β → α)
    (xs : List α) (new : List β) : List α :=
  new.foldl (fun acc b => if hasKey keyOf acc (key b) then acc else acc ++ [mk b]) xs

theorem hasKey_append {α κ : Type} [BEq κ] (keyOf : α → κ) (xs ys : List α) (k : κ) :
    hasKey keyOf (xs ++ ys) k = (hasKey keyOf xs k || hasKey keyOf ys k) := by
  simp [hasKey]

theorem addDedup_hasKey_mono {α β κ : Type} [BEq κ] (keyOf : α → κ) (key : β → κ)
    (mk : β → α) (new : List β) (xs : List α) (k : κ)
    (h : hasKey keyOf xs k = true) :
    hasKey keyOf (addDedup keyOf key mk xs new) k = true := by
  induction new generalizing xs with
  | nil => exact h
  | cons b bs ih =>
      unfold addDedup
      simp only [List.foldl_cons]
      by_cases hb : hasKey keyOf xs (key b) = true
      · rw [if_pos hb]
        exact ih xs h
      · rw [if_neg hb]
        refine ih (xs ++ [mk b]) ?_
        rw [hasKey_append, h]
        rfl

theorem addDedup_adds {α β κ : Type} [BEq κ] [LawfulBEq κ] (keyOf : α → κ)
    (key : β → κ) (mk : β → α) (hmk : ∀ b, keyOf (mk b) = key b)
    (new : List β) (xs : List α) (b : β) (hb : b ∈ new) :
    hasKey keyOf (addDedup keyOf key mk xs new) (key b) = true := by
  induction new generalizing xs with
  | nil => cases hb
  | cons c cs ih =>
      unfold addDedup
      simp only [List.foldl_cons]
      rcases List.mem_cons.mp hb with hbc | hbtl
      · subst hbc
        by_cases hc : hasKey keyOf xs (key b) = true
        · rw [if_pos hc]
          exact addDedup_hasKey_mono keyOf key mk cs xs (key b) hc
        · rw [if_neg hc]
          refine addDedup_hasKey_mono keyOf key mk cs (xs ++ [mk b]) (key b) ?_
          rw [hasKey_append]
          have : hasKey keyOf [mk b] (key b) = true := by
            simp [hasKey, hmk b]
          rw [this]
          simp
      · by_cases hc : hasKey keyOf xs (key c) = true
        · rw [if_pos hc]
          exact ih xs hbtl
        · rw [if_neg hc]
          exact ih (xs ++ [mk c]) hbtl

theorem addDedup_noop {α β κ : Type} [BEq κ] (keyOf : α → κ) (key : β → κ)
    (mk : β → α) (new : List β) (xs : List α)
    (h : ∀ b ∈ new, hasKey keyOf xs (key b) = true) :
    addDedup keyOf key mk xs new = xs := by
  induction new generalizing xs with
  | nil => rfl
  | cons b bs ih =>
      unfold addDedup
      simp only [List.foldl_cons]
      rw [if_pos (h b (List.mem_cons_self b bs))]
      exact ih xs (fun c hc => h c (List.mem_cons_of_mem b hc))

theorem addDedup_append_only {α β κ : Type} [BEq κ] (keyOf : α → κ) (key : β → κ)
    (mk : β → α) (new : List β) (xs : List α) :
    ∃ t, addDedup keyOf key mk xs new = xs ++ t := by
  induction new generalizing xs with
  | nil => exact ⟨[], (List.append_nil xs).symm⟩
  | cons b bs ih =>
      unfold addDedup
      simp only [List.foldl_cons]
      by_cases hb : hasKey keyOf xs (key b) = true
      · rw [if_pos hb]
        exact ih xs
      · rw [if_neg hb]
        rcases ih (xs ++ [mk b]) with ⟨t, ht⟩
        refine ⟨[mk b] ++ t, ?_⟩
        rw [← List.append_assoc]
        exact ht

theorem addDedup_pairwise {α β κ : Type} [BEq κ] [LawfulBEq κ] (keyOf : α → κ)
    (key : β → κ) (mk : β → α) (hmk : ∀ b, keyOf (mk b) = key b)
    (new : List β) (xs : List α)
    (h : xs.Pairwise (fun a c => keyOf a ≠ keyOf c)) :
    (addDedup keyOf key mk xs new).Pairwise (fun a c => keyOf a ≠ keyOf c) := by
  induction new generalizing xs with
  | nil => exact h
  | cons b bs ih =>
      unfold addDedup
      simp only [List.foldl_cons]
      by_cases hb : hasKey keyOf xs (key b) = true
      · rw [if_pos hb]
        exact ih xs h
      · rw [if_neg hb]
        refine ih (xs ++ [mk b]) ?_
        rw [List.pairwise_append]
        refine ⟨h, List.pairwise_singleton _ _, ?_⟩
        intro a ha c hc
        rw [List.mem_singleton.mp hc, hmk b]
        have hfalse : ¬(keyOf a == key b) = true :=
          (List.any_eq_false.mp ((Bool.not_eq_true _).mp hb)) a ha
        intro heq
        exact hfalse (by rw [heq]; exact beq_self_eq_true _)

/-! ### `handleSaveJsUrls` -/

/-- `if (csp) domainData.csp = csp` — JavaScript truthiness: `null`,
`undefined` and the empty string leave the stored value alone. -/
def mergeCsp (old new : Option String) : Option String :=
  match new with
  | some c => if c.isEmpty then old else some c
  | none => old

/-- The external-URL loop of `handleSaveJsUrls`: push
`{url, timestamp: Date.now(), source: 'content_script'}` for every batch
URL not already present by exact `url` match. -/
def addUrls (fs : List FileEntry) (urls : List String) (now : Nat) : List FileEntry :=
  addDedup (fun f => f.url) (fun u => u)
    (fun u => ⟨u, some now, "content_script"⟩) fs urls

/-- The inline loop of `handleSaveJsUrls`: push `{...inline, timestamp:
Date.now()}` for every batch inline whose `hash` is not already
present. -/
def addInlines (is : List InlineEntry) (new : List InlineEntry) (now : Nat) :
    List InlineEntry :=
  addDedup (fun e => e.hash) (fun e => e.hash)
    (fun e => { e with timestamp := now }) is new

/-- `BugSnifferBackground.handleSaveJsUrls` on an already-upgraded record:
merge batch URLs (dedup by `url`), batch inlines (dedup by `hash`),
replace `csp` when the batch carries a truthy one, replace `sri` when the
batch carries a non-empty list, and rewrite the metadata. -/
def handleSaveJsUrls (d : DomainData) (b : Batch) (now : Nat) : DomainData :=
  { files := addUrls d.files b.urls now
    inlines := addInlines d.inlines b.inlines now
    csp := mergeCsp d.csp b.csp
    sri := if b.sri.isEmpty then d.sri else b.sri
    metadata := ⟨some now, some (addUrls d.files b.urls now).length,
                 some (addInlines d.inlines b.inlines now).length⟩ }

/-- The legacy-shape check at the top of `handleSaveJsUrls` (and
`saveJavaScriptFile`): a persisted bare array of URL strings is upgraded
to `{ files: urls.map(url => ({url, source: 'legacy'})), inlines: [],
metadata: {} }` before merging. -/
inductive StoredValue where
  | legacyList (urls : List String)
  | record (d : DomainData)
  deriving DecidableEq

def upgradeStored : StoredValue → DomainData
  | .legacyList urls =>
      { files := urls.map (fun u => ⟨u, none, "legacy"⟩)
        inlines := []
        csp := none
        sri := []
        metadata := ⟨none, none, none⟩ }
  | .record d => d

/-- `handleSaveJsUrls` as invoked on the raw stored value. -/
def handleSaveJsUrlsStored (v : StoredValue) (b : Batch) (now : Nat) : DomainData :=
  handleSaveJsUrls (upgradeStored v) b now

/-- A domain-value element of the old persisted format, as consumed by
`migrateDataFormat`: either a URL string or an object with a `url`
field (`typeof url === 'string' ? url : url.url`). -/
inductive LegacyElem where
  | strUrl (s : String)
  | objUrl (u : String)
  deriving DecidableEq

def legacyElemUrl : LegacyElem → String
  | .strUrl s => s
  | .objUrl u => u

/-- The `files` list produced by `BugSnifferBackground.migrateDataFormat`
for one old-format domain value: `value.map(url => ({url: ...,
timestamp: Date.now(), source: 'legacy_migration'}))`. -/
def migrateFiles (v : List LegacyElem) (now : Nat) : List FileEntry :=
  v.map (fun e => ⟨legacyElemUrl e, some now, "legacy_migration"⟩)

/-- A sequence of `SAVE_JS_URLS` merges starting from the fresh default
record. -/
def runMerges (bs : List (Batch × Nat)) : DomainData :=
  bs.foldl (fun d p => handleSaveJsUrls d p.1 p.2) emptyDomainData

/-- **C3.** Merging the same batch a second time changes none of the
`files`, `inlines`, `sri` collections nor the stored CSP (while
`metadata.lastUpdated` is free to advance): the merge is idempotent on the
entry sets, introducing no duplicate file (by `url`) and no duplicate
inline (by `hash`). -/
theorem C3_merge_idempotent (d : DomainData) (b : Batch) (n1 n2 : Nat) :
    (handleSaveJsUrls (handleSaveJsUrls d b n1) b n2).files
      = (handleSaveJsUrls d b n1).files ∧
    (handleSaveJsUrls (handleSaveJsUrls d b n1) b n2).inlines
      = (handleSaveJsUrls d b n1).inlines ∧
    (handleSaveJsUrls (handleSaveJsUrls d b n1) b n2).sri
      = (handleSaveJsUrls d b n1).sri ∧
    (handleSaveJsUrls (handleSaveJsUrls d b n1) b n2).csp
      = (handleSaveJsUrls d b n1).csp := by
  refine ⟨?_, ?_, ?_, ?_⟩
  · show addUrls (addUrls d.files b.urls n1) b.urls n2 = addUrls d.files b.urls n1
    unfold addUrls
    refine addDedup_noop (fun (f : FileEntry) => f.url) (fun (u : String) => u)
      (fun (u : String) => ⟨u, some n2, "content_script"⟩) b.urls _ ?_
    intro u hu
    exact addDedup_adds (fun (f : FileEntry) => f.url) (fun (u : String) => u)
      (fun (u : String) => ⟨u, some n1, "content_script"⟩) (fun _ => rfl) b.urls d.files u hu
  · show addInlines (addInlines d.inlines b.inlines n1) b.inlines n2
        = addInlines d.inlines b.inlines n1
    unfold addInlines
    refine addDedup_noop (fun (e : InlineEntry) => e.hash) (fun (e : InlineEntry) => e.hash)
      (fun (e : InlineEntry) => { e with timestamp := n2 }) b.inlines _ ?_
    intro e he
    exact addDedup_adds (fun (e : InlineEntry) => e.hash) (fun (e : InlineEntry) => e.hash)
      (fun (e : InlineEntry) => { e with timestamp := n1 }) (fun _ => rfl) b.inlines d.inlines e he
  · show (if b.sri.isEmpty then (handleSaveJsUrls d b n1).sri else b.sri)
        = (handleSaveJsUrls d b n1).sri
    have hfst : (handleSaveJsUrls d b n1).sri = (if b.sri.isEmpty then d.sri else b.sri) := rfl
    cases hs : b.sri.isEmpty with
    | true => rfl
    | false => rw [hfst, hs]; simp
  · show mergeCsp (handleSaveJsUrls d b n1).csp b.csp = (handleSaveJsUrls d b n1).csp
    show mergeCsp (mergeCsp d.csp b.csp) b.csp = mergeCsp d.csp b.csp
    cases hb : b.csp with
    | none => rfl
    | some c =>
        cases hc : c.isEmpty with
        | true => simp [mergeCsp, hc]
        | false => simp [mergeCsp, hc]

/-- **C4 counterexample.** The claim says batch SRI entries are unioned
into the stored set with previously stored entries never lost; in the code
a non-empty batch `sri` *replaces* the stored list, so a previously stored
entry disappears. -/
theorem C4_counterexample :
    (handleSaveJsUrls
        ⟨[], [], none, [⟨"https://a.com/x.js", "sha384-aaa", "sha384"⟩], ⟨none, none, none⟩⟩
        ⟨[], [], none, [⟨"https://a.com/y.js", "sha384-bbb", "sha384"⟩]⟩ 5).sri
      = [⟨"https://a.com/y.js", "sha384-bbb", "sha384"⟩] ∧
    (⟨"https://a.com/x.js", "sha384-aaa", "sha384"⟩ : SriEntry) ∉
      (handleSaveJsUrls
        ⟨[], [], none, [⟨"https://a.com/x.js", "sha384-aaa", "sha384"⟩], ⟨none, none, none⟩⟩
        ⟨[], [], none, [⟨"https://a.com/y.js", "sha384-bbb", "sha384"⟩]⟩ 5).sri := by
  decide

/-- **C4 (amended).** When the merged batch carries a non-empty SRI list,
the batch list *replaces* the stored one wholesale (no union): previously
stored entries absent from the batch are lost.  Stored SRI survives only
batches whose SRI list is empty. -/
theorem C4_sri_amended (d : DomainData) (b : Batch) (now : Nat)
    (h : b.sri ≠ []) :
    (handleSaveJsUrls d b now).sri = b.sri ∧
    ∀ e ∈ d.sri, e ∉ b.sri → e ∉ (handleSaveJsUrls d b now).sri := by
  have hne : b.sri.isEmpty = false := List.isEmpty_eq_false.mpr h
  constructor
  · show (if b.sri.isEmpty then d.sri else b.sri) = b.sri
    rw [hne]
    simp
  · intro e _ henb
    show e ∉ (if b.sri.isEmpty then d.sri else b.sri)
    rw [hne]
    simpa using henb

/-- **C4 witness.** The amended theorem applied at a concrete record and
batch. -/
theorem C4_sri_amended_witness :
    (handleSaveJsUrls
        ⟨[], [], none, [⟨"https://a.com/x.js", "sha384-aaa", "sha384"⟩], ⟨none, none, none⟩⟩
        ⟨[], [], none, [⟨"https://a.com/y.js", "sha384-bbb", "sha384"⟩]⟩ 7).sri
      = [⟨"https://a.com/y.js", "sha384-bbb", "sha384"⟩] :=
  (C4_sri_amended
    ⟨[], [], none, [⟨"https://a.com/x.js", "sha384-aaa", "sha384"⟩], ⟨none, none, none⟩⟩
    ⟨[], [], none, [⟨"https://a.com/y.js", "sha384-bbb", "sha384"⟩]⟩ 7
    (by decide)).1

/-- **C8.** CSP is latest-wins: merging a batch whose `csp` is
`"policy-A"` and then one whose `csp` is `"policy-B"` leaves the stored
`csp` equal to `"policy-B"` (and the intermediate record held
`"policy-A"`). -/
theorem C8_csp_latest_wins (d : DomainData) (b1 b2 : Batch) (n1 n2 : Nat)
    (h1 : b1.csp = some "policy-A") (h2 : b2.csp = some "policy-B") :
    (handleSaveJsUrls (handleSaveJsUrls d b1 n1) b2 n2).csp = some "policy-B" ∧
    (handleSaveJsUrls d b1 n1).csp = some "policy-A" := by
  have hbe : ("policy-B".isEmpty) = false := by decide
  have hae : ("policy-A".isEmpty) = false := by decide
  constructor
  · show mergeCsp (handleSaveJsUrls d b1 n1).csp b2.csp = some "policy-B"
    rw [h2]
    simp [mergeCsp, hbe]
  · show mergeCsp d.csp b1.csp = some "policy-A"
    rw [h1]
    simp [mergeCsp, hae]

/-- **C8 witness.** The theorem applied at the fresh record and two
concrete batches. -/
theorem C8_csp_latest_wins_witness :
    (handleSaveJsUrls
        (handleSaveJsUrls emptyDomainData ⟨[], [], some "policy-A", []⟩ 1)
        ⟨[], [], some "policy-B", []⟩ 2).csp = some "policy-B" :=
  (C8_csp_latest_wins emptyDomainData ⟨[], [], some "policy-A", []⟩
    ⟨[], [], some "policy-B", []⟩ 1 2 rfl rfl).1

/-- **C6 counterexample.** The claim says legacy URLs are preserved as
entries tagged with source `'legacy'` on upgrade during a merge *or
migration*; the migration path (`migrateDataFormat`) instead tags them
`'legacy_migration'`. -/
theorem C6_counterexample :
    (migrateFiles [LegacyElem.strUrl "https://a.com/x.js"] 5).map (fun f => f.source)
      = ["legacy_migration"] ∧
    (migrateFiles [LegacyElem.strUrl "https://a.com/x.js"] 5).all
      (fun f => f.source == "legacy") = false ∧
    (migrateFiles [LegacyElem.strUrl "https://a.com/x.js"] 5).map (fun f => f.url)
      = ["https://a.com/x.js"] := by
  decide

/-- **C6 (amended).** A persisted bare array of URL strings is upgraded in
place to the structured record shape with no URL lost: the merge-path
upgrade (`handleSaveJsUrls` / `saveJavaScriptFile`) keeps exactly the
original URLs in order, tagged with source `'legacy'`, and a subsequent
merge only appends to those entries; the migration path
(`migrateDataFormat`) also keeps exactly the original URLs in order but
tags them `'legacy_migration'`. -/
theorem C6_legacy_amended (urls : List String) (v : List LegacyElem)
    (b : Batch) (now : Nat) :
    (upgradeStored (StoredValue.legacyList urls)).files.map (fun f => f.url) = urls ∧
    (upgradeStored (StoredValue.legacyList urls)).files.map (fun f => f.source)
      = urls.map (fun _ => "legacy") ∧
    (upgradeStored (StoredValue.legacyList urls)).inlines = [] ∧
    (migrateFiles v now).map (fun f => f.url) = v.map legacyElemUrl ∧
    (migrateFiles v now).map (fun f => f.source) = v.map (fun _ => "legacy_migration") ∧
    (∃ t, (handleSaveJsUrlsStored (StoredValue.legacyList urls) b now).files
      = (upgradeStored (StoredValue.legacyList urls)).files ++ t) := by
  refine ⟨?_, ?_, rfl, ?_, ?_, ?_⟩
  · show (urls.map (fun u => (⟨u, none, "legacy"⟩ : FileEntry))).map (fun f => f.url) = urls
    rw [List.map_map]
    exact List.map_id urls
  · show (urls.map (fun u => (⟨u, none, "legacy"⟩ : FileEntry))).map (fun f => f.source)
      = urls.map (fun _ => "legacy")
    rw [List.map_map]
    rfl
  · unfold migrateFiles
    rw [List.map_map]
    rfl
  · unfold migrateFiles
    rw [List.map_map]
    rfl
  · show ∃ t, addUrls (upgradeStored (StoredValue.legacyList urls)).files b.urls now
      = (upgradeStored (StoredValue.legacyList urls)).files ++ t
    unfold addUrls
    exact addDedup_append_only (fun (f : FileEntry) => f.url) (fun (u : String) => u)
      (fun (u : String) => ⟨u, some now, "content_script"⟩) b.urls _

theorem runMerges_inlines_pairwise_aux (bs : List (Batch × Nat)) :
    ∀ d : DomainData, d.inlines.Pairwise (fun a c => a.hash ≠ c.hash) →
      (bs.foldl (fun d p => handleSaveJsUrls d p.1 p.2) d).inlines.Pairwise
        (fun a c => a.hash ≠ c.hash) := by
  induction bs with
  | nil => exact fun d h => h
  | cons p ps ih =>
      intro d h
      simp only [List.foldl_cons]
      refine ih _ ?_
      show (addInlines d.inlines p.1.inlines p.2).Pairwise (fun a c => a.hash ≠ c.hash)
      unfold addInlines
      exact addDedup_pairwise (fun (e : InlineEntry) => e.hash)
        (fun (e : InlineEntry) => e.hash)
        (fun (e : InlineEntry) => { e with timestamp := p.2 }) (fun _ => rfl)
        p.1.inlines d.inlines h

/-- **C7.** In every record reachable by a sequence of merges from the
fresh record, no two inline entries share a `hash`; and a further merge
only ever *appends* to the stored inline list, so the first-seen entry for
any hash — its snippet and suspicious-signal data included — is retained
unchanged at its original position. -/
theorem C7_inline_dedup (bs : List (Batch × Nat)) (b : Batch) (n : Nat) :
    (runMerges bs).inlines.Pairwise (fun a c => a.hash ≠ c.hash) ∧
    ∃ t, (handleSaveJsUrls (runMerges bs) b n).inlines = (runMerges bs).inlines ++ t := by
  constructor
  · exact runMerges_inlines_pairwise_aux bs emptyDomainData List.Pairwise.nil
  · show ∃ t, addInlines (runMerges bs).inlines b.inlines n
      = (runMerges bs).inlines ++ t
    unfold addInlines
    exact addDedup_append_only (fun (e : InlineEntry) => e.hash)
      (fun (e : InlineEntry) => e.hash)
      (fun (e : InlineEntry) => { e with timestamp := n }) b.inlines _

/-- **C7 witness.** The invariant evaluated on a concrete two-batch merge
sequence that repeats a hash. -/
theorem C7_inline_dedup_witness :
    (runMerges [(⟨[], [⟨7, "alpha", [], 5, 0⟩], none, []⟩, 1),
                (⟨[], [⟨7, "beta", [], 4, 0⟩, ⟨9, "gamma", [], 5, 0⟩], none, []⟩, 2)]).inlines.Pairwise
      (fun a c => a.hash ≠ c.hash) :=
  (C7_inline_dedup [(⟨[], [⟨7, "alpha", [], 5, 0⟩], none, []⟩, 1),
                    (⟨[], [⟨7, "beta", [], 4, 0⟩, ⟨9, "gamma", [], 5, 0⟩], none, []⟩, 2)]
    ⟨[], [], none, []⟩ 3).1

/-- **C5 witness.** The amended normalizer theorem applied at a concrete
schemeless candidate and schemeless base. -/
theorem C5_normalize_amended_witness :
    toAbsoluteUrl (some "no scheme here") "also no scheme" = none :=
  (C5_normalize_amended "no scheme here" "also no scheme").1.mpr
    (Or.inr ⟨by decide, by decide⟩)

/-! ## `background.js`: `storeJS` / `saveJSFile`

The flat service worker keeps per-tab and per-domain in-memory sets and a
persisted `{ files, lastCrawl }` entry per domain, capped at the last 100
files (`entry.files.slice(-100)`). -/

structure FileObj where
  url : String
  domain : String
  discoveredAt : Nat
  source : String
  tabId : Nat
  filename : String
  deriving DecidableEq

structure BgEntry where
  files : List FileObj
  lastCrawl : Option Nat
  deriving DecidableEq

/-- `background.js`'s `saveJSFile`: drop any previous entry for the same
URL, append the new file object, stamp `lastCrawl`, and keep only the last
100 entries. -/
def saveJSFile (entry : BgEntry) (fileObj : FileObj) (now : Nat) : BgEntry :=
  let files1 := entry.files.filter (fun f => f.url != fileObj.url) ++ [fileObj]
  let files2 := if files1.length > 100 then files1.drop (files1.length - 100) else files1
  ⟨files2, some now⟩

/-- A stream of `saveJSFile` discovery events applied to the initially
absent record `{ files: [], lastCrawl: null }`, each stamped with its own
discovery time. -/
def runSaves (ops : List FileObj) : BgEntry :=
  ops.foldl (fun e f => saveJSFile e f f.discoveredAt) ⟨[], none⟩

theorem saveJSFile_length_le (entry : BgEntry) (fileObj : FileObj) (now : Nat) :
    (saveJSFile entry fileObj now).files.length ≤ 100 := by
  show (if (entry.files.filter (fun f => f.url != fileObj.url) ++ [fileObj]).length > 100
        then (entry.files.filter (fun f => f.url != fileObj.url) ++ [fileObj]).drop
          ((entry.files.filter (fun f => f.url != fileObj.url) ++ [fileObj]).length - 100)
        else entry.files.filter (fun f => f.url != fileObj.url) ++ [fileObj]).length ≤ 100
  split
  · rename_i hgt
    rw [List.length_drop]
    omega
  · rename_i hle
    omega

theorem saveJSFile_fresh (entry : BgEntry) (fileObj : FileObj) (now : Nat)
    (h : ∀ x ∈ entry.files, x.url ≠ fileObj.url) :
    (saveJSFile entry fileObj now).files =
      (if (entry.files ++ [fileObj]).length > 100
       then (entry.files ++ [fileObj]).drop ((entry.files ++ [fileObj]).length - 100)
       else entry.files ++ [fileObj]) := by
  have hfilter : entry.files.filter (fun f => f.url != fileObj.url) = entry.files :=
    List.filter_eq_self.mpr (fun x hx => bne_iff_ne.mpr (h x hx))
  show (if (entry.files.filter (fun f => f.url != fileObj.url) ++ [fileObj]).length > 100
        then (entry.files.filter (fun f => f.url != fileObj.url) ++ [fileObj]).drop
          ((entry.files.filter (fun f => f.url != fileObj.url) ++ [fileObj]).length - 100)
        else entry.files.filter (fun f => f.url != fileObj.url) ++ [fileObj]) = _
  rw [hfilter]

theorem runSaves_files_eq (ops : List FileObj)
    (hurls : ops.Pairwise (fun a b => a.url ≠ b.url)) :
    (runSaves ops).files = ops.drop (ops.length - 100) := by
  induction ops using List.reverseRecOn with
  | nil => rfl
  | append_singleton ops' f ih =>
      have hsplit := List.pairwise_append.mp hurls
      have hops' : ops'.Pairwise (fun a b => a.url ≠ b.url) := hsplit.1
      have hcross : ∀ a ∈ ops', a.url ≠ f.url := by
        intro a ha
        exact hsplit.2.2 a ha f (List.mem_singleton_self f)
      have hstep : runSaves (ops' ++ [f]) = saveJSFile (runSaves ops') f f.discoveredAt := by
        unfold runSaves
        rw [List.foldl_append]
        rfl
      have hprev := ih hops'
      have hfreshmem : ∀ x ∈ (runSaves ops').files, x.url ≠ f.url := by
        intro x hx
        rw [hprev] at hx
        exact hcross x (List.mem_of_mem_drop hx)
      rw [hstep, saveJSFile_fresh _ _ _ hfreshmem, hprev]
      by_cases hlen : ops'.length < 100
      · have hk : ops'.length - 100 = 0 := by omega
        rw [hk, List.drop_zero]
        have hlen1 : (ops' ++ [f]).length = ops'.length + 1 := by simp
        rw [if_neg (by rw [hlen1]; omega)]
        have hk1 : (ops' ++ [f]).length - 100 = 0 := by rw [hlen1]; omega
        rw [hk1, List.drop_zero]
      · have hk : ops'.length - 100 + 100 = ops'.length := by omega
        have hdroplen : (ops'.drop (ops'.length - 100)).length = 100 := by
          rw [List.length_drop]
          omega
        have hlen1 : (ops'.drop (ops'.length - 100) ++ [f]).length = 101 := by
          simp [hdroplen]
        rw [if_pos (by rw [hlen1]; omega), hlen1]
        have hstep2 : (ops'.drop (ops'.length - 100) ++ [f]).drop (101 - 100)
            = ops'.drop (ops'.length - 100 + 1) ++ [f] := by
          rw [List.drop_append_eq_append_drop, hdroplen, List.drop_drop]
          norm_num
        rw [hstep2]
        have htarget : (ops' ++ [f]).drop ((ops' ++ [f]).length - 100)
            = ops'.drop (ops'.length - 100 + 1) ++ [f] := by
          have hlen2 : (ops' ++ [f]).length = ops'.length + 1 := by simp
          rw [hlen2, List.drop_append_eq_append_drop]
          have h1 : ops'.length + 1 - 100 = ops'.length - 100 + 1 := by omega
          rw [h1]
          have h2 : ops'.length - 100 + 1 - ops'.length = 0 := by omega
          rw [h2, List.drop_zero]
        rw [htarget]

/-! ## `BugSnifferBackground.saveJavaScriptFile`

The class-based service worker path: dedup by `url`, push the new file
info, then, above 1000 entries, sort by `(b.timestamp || 0) -
(a.timestamp || 0)` (newest first) and keep the first 1000. -/

/-- `f.timestamp || 0`. -/
def tsOf (f : FileEntry) : Nat := f.timestamp.getD 0

/-- The sort comparator `(b.timestamp || 0) - (a.timestamp || 0)` as the
"a before b" Boolean order used by the stable sort: descending by
timestamp. -/
def descByTs (a b : FileEntry) : Bool := decide (tsOf b ≤ tsOf a)

/-- `BugSnifferBackground.saveJavaScriptFile` on an already-upgraded
record (`fileInfo` from `createFileInfo`; network passenger fields
elided as described at `FileEntry`).  The metadata `totalFiles` is
stamped before the trim, exactly as in the source. -/
def saveJavaScriptFile (d : DomainData) (fileInfo : FileEntry) (now : Nat) : DomainData :=
  let files1 := d.files.filter (fun f => f.url != fileInfo.url) ++ [fileInfo]
  let files2 := if files1.length > 1000
                then (files1.mergeSort descByTs).take 1000
                else files1
  { d with files := files2
           metadata := ⟨some now, some files1.length, d.metadata.totalInlines⟩ }

/-- A stream of network discovery events applied via
`saveJavaScriptFile` to the fresh record, each stamped with its own
timestamp. -/
def runSaveJs (qs : List FileEntry) : DomainData :=
  qs.foldl (fun d f => saveJavaScriptFile d f (tsOf f)) emptyDomainData

theorem descByTs_trans (a b c : FileEntry) :
    descByTs a b → descByTs b c → descByTs a c := by
  unfold descByTs
  simp only [decide_eq_true_eq]
  omega

theorem descByTs_total (a b : FileEntry) : descByTs a b || descByTs b a := by
  unfold descByTs
  simp only [Bool.or_eq_true, decide_eq_true_eq]
  omega

/-- A stable sort by `descByTs` of any permutation of a list that is
already *strictly* descending by timestamp returns exactly that list. -/
theorem mergeSortDesc_eq (m target : List FileEntry) (hperm : m.Perm target)
    (hstrict : target.Pairwise (fun a b => tsOf b < tsOf a)) :
    m.mergeSort descByTs = target := by
  have hpermt : (m.mergeSort descByTs).Perm target :=
    (List.mergeSort_perm m descByTs).trans hperm
  have hsorted : (m.mergeSort descByTs).Pairwise (fun a b => descByTs a b) :=
    List.sorted_mergeSort descByTs_trans descByTs_total m
  have hnoduptarget : target.Pairwise (fun a b => tsOf a ≠ tsOf b) :=
    hstrict.imp (fun h => by omega)
  have hnodupm : (m.mergeSort descByTs).Pairwise (fun a b => tsOf a ≠ tsOf b) :=
    (hpermt.pairwise_iff (fun h => h.symm)).mpr hnoduptarget
  have hstrictm : (m.mergeSort descByTs).Pairwise (fun a b => tsOf b < tsOf a) :=
    (hsorted.and hnodupm).imp (fun h => by
      rcases h with ⟨h1, h2⟩
      unfold descByTs at h1
      simp only [decide_eq_true_eq] at h1
      omega)
  haveI : IsAntisymm FileEntry (fun a b => tsOf b < tsOf a) :=
    ⟨fun a b h1 h2 => absurd h2 (by omega)⟩
  exact List.eq_of_perm_of_sorted hpermt hstrictm hstrict

theorem reverse_take_eq_drop_one {α : Type} (l : List α) :
    l.reverse.take (l.length - 1) = (l.drop 1).reverse := by
  cases l with
  | nil => rfl
  | cons x xs =>
      show (x :: xs).reverse.take ((x :: xs).length - 1) = xs.reverse
      rw [List.reverse_cons]
      have hlen : (x :: xs).length - 1 = xs.reverse.length := by simp
      rw [hlen]
      exact List.take_left xs.reverse [x]

theorem runSaveJs_files_eq (qs : List FileEntry)
    (hurls : qs.Pairwise (fun a b => a.url ≠ b.url))
    (hinc : qs.Pairwise (fun a b => tsOf a < tsOf b)) :
    (runSaveJs qs).files =
      (if qs.length ≤ 1000 then qs else (qs.drop (qs.length - 1000)).reverse) := by
  induction qs using List.reverseRecOn with
  | nil => rfl
  | append_singleton qs' f ih =>
      have hu := List.pairwise_append.mp hurls
      have ht := List.pairwise_append.mp hinc
      have hq' : qs'.Pairwise (fun a b => a.url ≠ b.url) := hu.1
      have ht' : qs'.Pairwise (fun a b => tsOf a < tsOf b) := ht.1
      have hucross : ∀ a ∈ qs', a.url ≠ f.url :=
        fun a ha => hu.2.2 a ha f (List.mem_singleton_self f)
      have htcross : ∀ a ∈ qs', tsOf a < tsOf f :=
        fun a ha => ht.2.2 a ha f (List.mem_singleton_self f)
      have hstep : runSaveJs (qs' ++ [f]) = saveJavaScriptFile (runSaveJs qs') f (tsOf f) := by
        unfold runSaveJs
        rw [List.foldl_append]
        rfl
      have hprev := ih hq' ht'
      have hprevmem : ∀ x ∈ (runSaveJs qs').files, x ∈ qs' := by
        intro x hx
        rw [hprev] at hx
        by_cases hle : qs'.length ≤ 1000
        · rw [if_pos hle] at hx
          exact hx
        · rw [if_neg hle] at hx
          exact List.mem_of_mem_drop (List.mem_reverse.mp hx)
      have hfilter : (runSaveJs qs').files.filter (fun x => x.url != f.url)
          = (runSaveJs qs').files :=
        List.filter_eq_self.mpr (fun x hx => bne_iff_ne.mpr (hucross x (hprevmem x hx)))
      have hsave : (saveJavaScriptFile (runSaveJs qs') f (tsOf f)).files =
          (if ((runSaveJs qs').files ++ [f]).length > 1000
           then (((runSaveJs qs').files ++ [f]).mergeSort descByTs).take 1000
           else (runSaveJs qs').files ++ [f]) := by
        have hdef : (saveJavaScriptFile (runSaveJs qs') f (tsOf f)).files =
            (if ((runSaveJs qs').files.filter (fun x => x.url != f.url) ++ [f]).length > 1000
             then (((runSaveJs qs').files.filter (fun x => x.url != f.url) ++ [f]).mergeSort
                descByTs).take 1000
             else (runSaveJs qs').files.filter (fun x => x.url != f.url) ++ [f]) := rfl
        rw [hdef, hfilter]
      rw [hstep, hsave]
      by_cases hA : qs'.length + 1 ≤ 1000
      · have hle' : qs'.length ≤ 1000 := by omega
        rw [hprev, if_pos hle']
        have hc1 : ¬((qs' ++ [f]).length > 1000) := by
          rw [List.length_append]
          simp
          omega
        have hc2 : (qs' ++ [f]).length ≤ 1000 := by
          rw [List.length_append]
          simp
          omega
        rw [if_neg hc1, if_pos hc2]
      · have hge : 1000 ≤ qs'.length := by omega
        have hprevperm : ((runSaveJs qs').files).Perm (qs'.drop (qs'.length - 1000)).reverse := by
          rw [hprev]
          by_cases hle : qs'.length ≤ 1000
          · have h0 : qs'.length - 1000 = 0 := by omega
            rw [if_pos hle, h0, List.drop_zero]
            exact (List.reverse_perm qs').symm
          · rw [if_neg hle]
        have hprevlen : (runSaveJs qs').files.length = 1000 := by
          rw [hprevperm.length_eq, List.length_reverse, List.length_drop]
          omega
        have hpermm : ((runSaveJs qs').files ++ [f]).Perm
            (f :: (qs'.drop (qs'.length - 1000)).reverse) :=
          (List.perm_append_singleton f _).trans (hprevperm.cons f)
        have htargetstrict : (f :: (qs'.drop (qs'.length - 1000)).reverse).Pairwise
            (fun a b => tsOf b < tsOf a) := by
          rw [List.pairwise_cons]
          constructor
          · intro x hx
            exact htcross x (List.mem_of_mem_drop (List.mem_reverse.mp hx))
          · rw [List.pairwise_reverse]
            exact List.Pairwise.sublist (List.drop_sublist _ qs') ht'
        have hsorteq : (((runSaveJs qs').files ++ [f]).mergeSort descByTs)
            = f :: (qs'.drop (qs'.length - 1000)).reverse :=
          mergeSortDesc_eq _ _ hpermm htargetstrict
        have hc : ((runSaveJs qs').files ++ [f]).length > 1000 := by
          rw [List.length_append, hprevlen]
          simp
        rw [if_pos hc, hsorteq]
        have htake : (f :: (qs'.drop (qs'.length - 1000)).reverse).take 1000
            = f :: ((qs'.drop (qs'.length - 1000)).reverse).take 999 := rfl
        rw [htake]
        have hdl : (qs'.drop (qs'.length - 1000)).length = 1000 := by
          rw [List.length_drop]
          omega
        have h999 : ((qs'.drop (qs'.length - 1000)).reverse).take 999
            = ((qs'.drop (qs'.length - 1000)).drop 1).reverse := by
          have he : (999 : Nat) = (qs'.drop (qs'.length - 1000)).length - 1 := by
            rw [hdl]
          rw [he, reverse_take_eq_drop_one]
        rw [h999, List.drop_drop]
        have hc2 : ¬((qs' ++ [f]).length ≤ 1000) := by
          rw [List.length_append]
          simp
          omega
        rw [if_neg hc2]
        have hidx : (qs' ++ [f]).length - 1000 = (qs'.length - 1000) + 1 := by
          rw [List.length_append]
          simp
          omega
        rw [hidx, List.drop_append_eq_append_drop]
        have hidx2 : qs'.length - 1000 + 1 - qs'.length = 0 := by omega
        rw [hidx2, List.drop_zero, List.reverse_append]
        rfl

/-- **C1.** Retention cap, for both persistence paths.  `saveJSFile`
(`background.js`) never lets a record exceed 100 files after an
operation, and over a stream of discoveries with pairwise-distinct URLs
and strictly increasing timestamps the final record is exactly the suffix
of the 100 most recent discoveries — every evicted entry is strictly
older than every kept entry.  `saveJavaScriptFile` (class service worker)
never exceeds 1000 files, and over such a stream keeps exactly the 1000
most recent discoveries (newest-first once the cap engages), evicting
only strictly older entries. -/
theorem C1_retention_cap (ops : List FileObj) (qs : List FileEntry)
    (h1 : ops.Pairwise (fun a b => a.url ≠ b.url))
    (h2 : ops.Pairwise (fun a b => a.discoveredAt < b.discoveredAt))
    (h3 : qs.Pairwise (fun a b => a.url ≠ b.url))
    (h4 : qs.Pairwise (fun a b => tsOf a < tsOf b)) :
    (∀ (e : BgEntry) (f : FileObj) (n : Nat), (saveJSFile e f n).files.length ≤ 100) ∧
    (runSaves ops).files = ops.drop (ops.length - 100) ∧
    (∀ f ∈ ops, f ∉ (runSaves ops).files →
      ∀ g ∈ (runSaves ops).files, f.discoveredAt < g.discoveredAt) ∧
    (∀ (d : DomainData) (f : FileEntry) (n : Nat),
      (saveJavaScriptFile d f n).files.length ≤ 1000) ∧
    (runSaveJs qs).files
      = (if qs.length ≤ 1000 then qs else (qs.drop (qs.length - 1000)).reverse) ∧
    (∀ f ∈ qs, f ∉ (runSaveJs qs).files →
      ∀ g ∈ (runSaveJs qs).files, tsOf f < tsOf g) := by
  refine ⟨saveJSFile_length_le, runSaves_files_eq ops h1, ?_, ?_,
    runSaveJs_files_eq qs h3 h4, ?_⟩
  · intro f hf hnf g hg
    rw [runSaves_files_eq ops h1] at hnf hg
    have hftake : f ∈ ops.take (ops.length - 100) := by
      have hfsplit : f ∈ ops.take (ops.length - 100) ++ ops.drop (ops.length - 100) := by
        rw [List.take_append_drop]
        exact hf
      rcases List.mem_append.mp hfsplit with h | h
      · exact h
      · exact absurd h hnf
    have hp := h2
    rw [← List.take_append_drop (ops.length - 100) ops] at hp
    exact (List.pairwise_append.mp hp).2.2 f hftake g hg
  · intro d f n
    show (if (d.files.filter (fun x => x.url != f.url) ++ [f]).length > 1000
          then ((d.files.filter (fun x => x.url != f.url) ++ [f]).mergeSort descByTs).take 1000
          else d.files.filter (fun x => x.url != f.url) ++ [f]).length ≤ 1000
    split
    · rw [List.length_take]
      omega
    · rename_i hle
      omega
  · intro f hf hnf g hg
    rw [runSaveJs_files_eq qs h3 h4] at hnf hg
    by_cases hle : qs.length ≤ 1000
    · rw [if_pos hle] at hnf
      exact absurd hf hnf
    · rw [if_neg hle] at hnf hg
      have hgdrop : g ∈ qs.drop (qs.length - 1000) := List.mem_reverse.mp hg
      have hftake : f ∈ qs.take (qs.length - 1000) := by
        have hfsplit : f ∈ qs.take (qs.length - 1000) ++ qs.drop (qs.length - 1000) := by
          rw [List.take_append_drop]
          exact hf
        rcases List.mem_append.mp hfsplit with h | h
        · exact h
        · exact absurd h (fun hmem => hnf (List.mem_reverse.mpr hmem))
      have hp := h4
      rw [← List.take_append_drop (qs.length - 1000) qs] at hp
      exact (List.pairwise_append.mp hp).2.2 f hftake g hgdrop

/-- **C1 witness.** The retention theorem applied to a concrete
two-element discovery stream on each path (cap not yet reached, so the
whole stream is kept). -/
theorem C1_retention_cap_witness :
    (runSaves [⟨"https://a.com/a.js", "a.com", 1, "network", 1, "a.js"⟩,
               ⟨"https://a.com/b.js", "a.com", 2, "network", 1, "b.js"⟩]).files
      = [⟨"https://a.com/a.js", "a.com", 1, "network", 1, "a.js"⟩,
         ⟨"https://a.com/b.js", "a.com", 2, "network", 1, "b.js"⟩] ∧
    (runSaveJs [⟨"https://a.com/a.js", some 1, "network"⟩,
                ⟨"https://a.com/b.js", some 2, "network"⟩]).files
      = [⟨"https://a.com/a.js", some 1, "network"⟩,
         ⟨"https://a.com/b.js", some 2, "network"⟩] := by
  have h := C1_retention_cap
    [⟨"https://a.com/a.js", "a.com", 1, "network", 1, "a.js"⟩,
     ⟨"https://a.com/b.js", "a.com", 2, "network", 1, "b.js"⟩]
    [⟨"https://a.com/a.js", some 1, "network"⟩,
     ⟨"https://a.com/b.js", some 2, "network"⟩]
    (by decide) (by decide) (by decide) (by decide)
  refine ⟨?_, ?_⟩
  · rw [h.2.1]
    decide
  · rw [h.2.2.2.2.1]
    decide

/-! ## `background.js`: `storeJS` and its caches -/

/-- `new URL(url).hostname`, simplified to the alphabet the discovery
pipeline sees: the characters between the first `://` and the next
delimiter (`/`, `?`, `#` or `:`); strings without `://` or with an empty
host fail to parse (`getDomain` returns null). -/
def getDomain (url : String) : Option String :=
  match afterSeq "://".toList url.toList with
  | none => none
  | some rest =>
      let host := rest.takeWhile (fun c => !(c = '/' || c = '?' || c = '#' || c = ':'))
      if host.isEmpty then none else some (String.mk host)

/-- `new URL(url).pathname.split('/').pop() || 'unknown.js'`, over the
same simplified URL shape as `getDomain`. -/
def getFilename (url : String) : String :=
  match afterSeq "://".toList url.toList with
  | none => "unknown.js"
  | some rest =>
      let path := (rest.dropWhile (fun c => !(c = '/'))).takeWhile
        (fun c => !(c = '?' || c = '#'))
      let seg := (path.reverse.takeWhile (fun c => !(c = '/'))).reverse
      if seg.isEmpty then "unknown.js" else String.mk seg

/-- JavaScript `Set.add` keyed by insertion order. -/
def addToSet (s : List String) (u : String) : List String :=
  if s.contains u then s else s ++ [u]

/-- Association-list update for the `Map.set` calls of `background.js`. -/
def setAssoc {κ ν : Type} [BEq κ] (m : List (κ × ν)) (k : κ) (v : ν) : List (κ × ν) :=
  match m with
  | [] => [(k, v)]
  | (k1, v1) :: rest => if k1 == k then (k, v) :: rest else (k1, v1) :: setAssoc rest k v

/-- The mutable state of the flat service worker that `storeJS` touches:
the per-tab cache `tabJSFiles`, the per-domain cache `globalJSFiles`, and
the stream of `saveJSFile(domain, fileObj)` persistence calls it has
issued. -/
structure BgState where
  tabJSFiles : List (Nat × List String)
  globalJSFiles : List (String × List String)
  persisted : List (String × FileObj)
  deriving DecidableEq

/-- `background.js`'s `storeJS`: reject URLs that are falsy or do not
start with `http`; reject URLs containing `data:`, `javascript:` or
`chrome-extension:` anywhere; reject URLs with no parseable domain; then
record the URL in the tab cache and the domain cache, and persist a file
object if the domain cache did not already hold the URL. -/
def storeJS (st : BgState) (url : String) (tabId : Nat) (source : String)
    (now : Nat) : BgState :=
  if !(strStartsWith url "http") then st
  else if strIncludes url "data:" || strIncludes url "javascript:" ||
      strIncludes url "chrome-extension:" then st
  else
    match getDomain url with
    | none => st
    | some domain =>
        let tabSet := ((st.tabJSFiles.lookup tabId).getD [])
        let domSet := ((st.globalJSFiles.lookup domain).getD [])
        let wasNew := !(domSet.contains url)
        { tabJSFiles := setAssoc st.tabJSFiles tabId (addToSet tabSet url)
          globalJSFiles := setAssoc st.globalJSFiles domain (addToSet domSet url)
          persisted :=
            if wasNew then
              st.persisted ++ [(domain, ⟨url, domain, now, source, tabId, getFilename url⟩)]
            else st.persisted }

/-- **C10.** `storeJS` silently drops a URL — no tab cache entry, no
domain cache entry, nothing persisted — whenever the URL does not start
with the literal prefix `http`, and likewise whenever `data:`,
`javascript:` or `chrome-extension:` occurs anywhere in the URL, so an
otherwise valid `https` URL whose query merely contains `data:` as a
substring is excluded from the domain record. -/
theorem C10_storeJS_drops (st : BgState) (url : String) (tabId : Nat)
    (source : String) (now : Nat)
    (h : strStartsWith url "http" = false ∨ strIncludes url "data:" = true ∨
      strIncludes url "javascript:" = true ∨ strIncludes url "chrome-extension:" = true) :
    storeJS st url tabId source now = st := by
  unfold storeJS
  by_cases hs : strStartsWith url "http" = true
  · rw [hs]
    have hinc : (strIncludes url "data:" || strIncludes url "javascript:" ||
        strIncludes url "chrome-extension:") = true := by
      rcases h with h | h | h | h
      · rw [hs] at h
        exact absurd h (by simp)
      · rw [h]
        simp
      · rw [h]
        simp
      · rw [h]
        simp
    rw [hinc]
    rfl
  · have hs' : strStartsWith url "http" = false := by
      cases hv : strStartsWith url "http"
      · rfl
      · exact absurd hv hs
    rw [hs']
    rfl

/-- **C10 witness.** A well-formed `https` URL whose query string contains
`data:` as a substring is dropped: the state is unchanged. -/
theorem C10_storeJS_drops_witness :
    storeJS ⟨[], [], []⟩ "https://a.com/app.js?next=data:text/html,x" 1 "network" 5
      = ⟨[], [], []⟩ :=
  C10_storeJS_drops ⟨[], [], []⟩ "https://a.com/app.js?next=data:text/html,x" 1 "network" 5
    (Or.inr (Or.inl (by decide)))
